import Mathlib

/-!
Verification development for the Blender-File-Autosaver version history
engine (`history manager.py`).  The filesystem state of one project
directory is embedded shallowly: the `history/` and `deleted/`
directories are lists of files (basename, mtime in seconds, content
bytes), and the JSON index is a list of typed version entries.  Every
operation below is translated from the corresponding Python function.
-/

namespace Autosaver

/-- File in a project subdirectory: basename, mtime (seconds), raw bytes. -/
structure FSFile where
  name : String
  mtime : Nat
  content : List Nat
deriving Repr, DecidableEq

/-- One record of the JSON index (`index.json`, key `versions`).
The `size_MB` field stores hundredths of a megabyte, or `none` when the
source file was absent at registration time (Python stores `null`). -/
structure VersionEntry where
  file : String
  timestamp : String
  size_MB : Option Nat
  note : String
  status : String
  compressed : Bool
deriving Repr, DecidableEq

/-- Full state of one project directory: the `history/` directory, the
`deleted/` directory, and the decoded content of `index.json`. -/
structure PState where
  history : List FSFile
  deleted : List FSFile
  index : List VersionEntry
deriving Repr, DecidableEq

/-- Model of `os.path.basename` for POSIX paths: the characters after
the last slash. -/
def basename (p : String) : String :=
  ⟨p.data.foldl (fun acc c => if c = '/' then [] else acc ++ [c]) []⟩

/-- Model of `round(bytes / (1024*1024), 2)` as hundredths of a megabyte,
rounding half up. -/
def round2MB (bytes : Nat) : Nat :=
  (bytes * 100 + 524288) / 1048576

/-- Model of Python `str.endswith` via reversed character lists. -/
def strEndsWith (s suffix : String) : Bool :=
  suffix.data.reverse.isPrefixOf s.data.reverse

/-- Glob pattern `*.blend` used by `compress_old_versions`. -/
def isBlend (s : String) : Bool :=
  strEndsWith s ".blend"

/-- Python `load_index`: the index file content, or an empty version list
when the file is missing or unparseable (modelled at the value level;
the byte-level JSON codec is `encodeIndex`/`decodeIndex` below). -/
def load_index (st : PState) : List VersionEntry :=
  st.index

/-- Python `save_index`: rewrite the whole index document. -/
def save_index (st : PState) (data : List VersionEntry) : PState :=
  { st with index := data }

/-- Python `register_version`: append a fresh entry (status `active`)
computed from the live file and persist the index.  `now` is the
formatted timestamp string `time.strftime` would produce. -/
def register_version (st : PState) (filename : String) (now : String)
    (note : String) (compressed : Bool) : PState × VersionEntry :=
  let b := basename filename
  let size? : Option Nat :=
    match st.history.find? (fun f => f.name == b) with
    | some f => some (round2MB f.content.length)
    | none => none
  let entry : VersionEntry :=
    { file := b, timestamp := now, size_MB := size?, note := note
      status := "active", compressed := compressed }
  (save_index st (load_index st ++ [entry]), entry)

/-- Python `list_versions`: all entries, or the entries whose status is
not `deleted`. -/
def list_versions (st : PState) (include_deleted : Bool) : List VersionEntry :=
  let versions := load_index st
  if include_deleted then versions
  else versions.filter (fun v => v.status != "deleted")

/-- Python `save_versioned_copy`: the host writes the current document
bytes to `history/{stem}_{ts}.blend` (overwriting any file of that
name), then `register_version` records it; on copy failure the function
returns `none` and changes nothing. -/
def save_versioned_copy (st : PState) (stem ts : String) (now : Nat)
    (tstr : String) (content : List Nat) (copyOk : Bool) (note : String) :
    PState × Option String :=
  if copyOk then
    let filename := stem ++ "_" ++ ts ++ ".blend"
    let st1 : PState :=
      { st with history :=
          st.history.filter (fun g => g.name != filename)
            ++ [{ name := filename, mtime := now, content := content }] }
    ((register_version st1 filename tstr note false).1, some filename)
  else
    (st, none)

/-- Python `compress_file`: write `path.gz` with the gzipped bytes
(overwriting any existing file of that name) and remove the original;
returns the new name.  `gzip` abstracts the gzip byte transform. -/
def compress_file (gzip : List Nat → List Nat) (now : Nat)
    (st : PState) (fname : String) : PState × Option String :=
  match st.history.find? (fun f => f.name == fname) with
  | none => (st, none)
  | some f =>
      let gzName := fname ++ ".gz"
      ({ st with history :=
          st.history.filter (fun g => g.name != fname && g.name != gzName)
            ++ [{ name := gzName, mtime := now, content := gzip f.content }] },
       some gzName)

/-- Index update of `compress_old_versions`: the first entry whose `file`
equals the old basename gets the `.gz` name and `compressed := true`
(the Python line `v["status"] = v.get("status", "active")` keeps the
status of a well-formed entry unchanged). -/
def updateFirstCompress (name gzName : String) :
    List VersionEntry → List VersionEntry
  | [] => []
  | v :: vs =>
      if v.file == name then
        { v with compressed := true, file := gzName } :: vs
      else
        v :: updateFirstCompress name gzName vs

/-- One iteration of the loop in `compress_old_versions`. -/
def compressStep (gzip : List Nat → List Nat) (now : Nat)
    (s : PState) (fname : String) : PState :=
  match compress_file gzip now s fname with
  | (s1, some gz) => { s1 with index := updateFirstCompress fname gz s1.index }
  | (s1, none) => s1

/-- Stable insertion used to model `sorted(..., key=os.path.getmtime,
reverse=True)`: among equal mtimes the original order is kept, as
Python's stable sort guarantees. -/
def insertDesc (f : FSFile) : List FSFile → List FSFile
  | [] => [f]
  | g :: gs => if g.mtime < f.mtime then f :: g :: gs else g :: insertDesc f gs

/-- Stable sort of the directory listing by mtime, newest first. -/
def sortDescByMtime (fs : List FSFile) : List FSFile :=
  fs.foldl (fun acc f => insertDesc f acc) []

/-- The `glob("*.blend")` listing sorted newest first. -/
def globBlendSortedDesc (st : PState) : List FSFile :=
  sortDescByMtime (st.history.filter (fun f => isBlend f.name))

/-- Python `compress_old_versions`: every `*.blend` file beyond the
`keep_uncompressed` newest is gzipped and its index entry updated. -/
def compress_old_versions (gzip : List Nat → List Nat) (now : Nat)
    (st : PState) (keep_uncompressed : Nat) : PState :=
  let files := globBlendSortedDesc st
  (files.drop keep_uncompressed).foldl
    (fun s f => compressStep gzip now s f.name) st

/-- Index update shared by `move_to_deleted` and `restore_deleted`: set
the status of the first entry whose `file` equals the basename. -/
def setFirstStatus (b status : String) :
    List VersionEntry → List VersionEntry
  | [] => []
  | v :: vs =>
      if v.file == b then { v with status := status } :: vs
      else v :: setFirstStatus b status vs

/-- Python `move_to_deleted`: if `history/` holds no file of that
basename, return false without touching anything; otherwise move the
file into `deleted/` (overwriting a file of the same name there) and
set the first matching index entry to `deleted`. -/
def move_to_deleted (st : PState) (file_basename : String) : PState × Bool :=
  match st.history.find? (fun f => f.name == file_basename) with
  | none => (st, false)
  | some f =>
      let st1 : PState :=
        { st with
          history := st.history.filter (fun g => g.name != file_basename)
          deleted := st.deleted.filter (fun g => g.name != file_basename) ++ [f] }
      (save_index st1 (setFirstStatus file_basename "deleted" (load_index st1)), true)

/-- Python `restore_deleted`: move the file from `deleted/` back into
`history/`; set the first matching entry back to `active`, or, when no
entry matches, synthesize a new entry with note `restored`. -/
def restore_deleted (st : PState) (file_basename : String)
    (tstr : String) : PState × Bool :=
  match st.deleted.find? (fun f => f.name == file_basename) with
  | none => (st, false)
  | some f =>
      let st1 : PState :=
        { st with
          history := st.history.filter (fun g => g.name != file_basename) ++ [f]
          deleted := st.deleted.filter (fun g => g.name != file_basename) }
      let data := load_index st1
      let found := data.any (fun v => v.file == file_basename)
      let data1 :=
        if found then setFirstStatus file_basename "active" data
        else data ++ [{ file := file_basename, timestamp := tstr
                        size_MB := some (round2MB f.content.length)
                        note := "restored", status := "active"
                        compressed := strEndsWith file_basename ".gz" }]
      (save_index st1 data1, true)

/-- Age test of `purge_deleted_older_than`: `now - mtime > days * 86400`
over the reals equals `days * 86400 + mtime < now` over naturals. -/
def isExpired (days now : Nat) (f : FSFile) : Bool :=
  days * 86400 + f.mtime < now

/-- Python `purge_deleted_older_than`: delete every expired file under
`deleted/`, then set the status of every entry whose `file` is among
the removed basenames to `purged`; return the removed basenames. -/
def purge_deleted_older_than (st : PState) (days now : Nat) :
    PState × List String :=
  let removed := (st.deleted.filter (isExpired days now)).map (·.name)
  let st1 : PState :=
    { st with deleted := st.deleted.filter (fun f => !isExpired days now f) }
  if removed.isEmpty then (st1, removed)
  else
    (save_index st1 ((load_index st1).map
        (fun v => if removed.contains v.file
                  then { v with status := "purged" } else v)),
     removed)

/-! ### Exception model

`save_index` opens `index.json` for writing with no try/except, so in
Python a failing write raises out of whichever operation called it; the
copy step of `save_versioned_copy`, the per-file work of
`compress_file`, and the per-file remove of the purge loop are each
wrapped in try/except and turned into result values.  `writable`
abstracts whether opening the index file for writing succeeds. -/

def isOkE {ε α : Type} : Except ε α → Bool
  | .ok _ => true
  | .error _ => false

/-- `register_version` under the exception model: it always calls
`save_index`, whose failure propagates. -/
def register_versionE (writable : Bool) (st : PState) (filename : String)
    (now : String) (note : String) (compressed : Bool) :
    Except String (PState × VersionEntry) :=
  if writable then .ok (register_version st filename now note compressed)
  else .error "save_index: index file not writable"

/-- `list_versions` only reads, so it never raises. -/
def list_versionsE (st : PState) (include_deleted : Bool) :
    Except String (List VersionEntry) :=
  .ok (list_versions st include_deleted)

/-- `save_versioned_copy` under the exception model: a failing host copy
is caught and reported as `none`, but a failing index write inside the
`register_version` call propagates. -/
def save_versioned_copyE (writable copyOk : Bool) (st : PState)
    (stem ts : String) (now : Nat) (tstr : String) (content : List Nat)
    (note : String) : Except String (PState × Option String) :=
  if copyOk then
    if writable then
      .ok (save_versioned_copy st stem ts now tstr content true note)
    else .error "save_index: index file not writable"
  else .ok (st, none)

/-- `compress_old_versions` under the exception model: `save_index` runs
once per compressed file, so the first compressed file raises when the
index file is not writable. -/
def compress_old_versionsE (writable : Bool) (gzip : List Nat → List Nat)
    (now : Nat) (st : PState) (keep : Nat) : Except String PState :=
  if ((globBlendSortedDesc st).drop keep).isEmpty then .ok st
  else if writable then .ok (compress_old_versions gzip now st keep)
  else .error "save_index: index file not writable"

/-- `move_to_deleted` under the exception model. -/
def move_to_deletedE (writable : Bool) (st : PState) (b : String) :
    Except String (PState × Bool) :=
  match st.history.find? (fun f => f.name == b) with
  | none => .ok (st, false)
  | some _ =>
      if writable then .ok (move_to_deleted st b)
      else .error "save_index: index file not writable"

/-- `restore_deleted` under the exception model. -/
def restore_deletedE (writable : Bool) (st : PState) (b : String)
    (tstr : String) : Except String (PState × Bool) :=
  match st.deleted.find? (fun f => f.name == b) with
  | none => .ok (st, false)
  | some _ =>
      if writable then .ok (restore_deleted st b tstr)
      else .error "save_index: index file not writable"

/-- `purge_deleted_older_than` under the exception model: `save_index`
runs only when at least one file was removed. -/
def purge_deleted_older_thanE (writable : Bool) (st : PState)
    (days now : Nat) : Except String (PState × List String) :=
  if ((st.deleted.filter (isExpired days now)).map FSFile.name).isEmpty then
    .ok (purge_deleted_older_than st days now)
  else if writable then .ok (purge_deleted_older_than st days now)
  else .error "save_index: index file not writable"

/-! ### Interleaving model for the shared index document

`_autosave_worker` saves a snapshot on the main thread and then starts
a daemon thread that runs compression and purge; both sides perform an
unsynchronized load, compute, save of the whole `index.json` document.
The schedule below interleaves the two read-modify-write transactions
on the shared document. -/

/-- One atomic action of a transaction: read the shared document into a
private snapshot, or write the transformed snapshot back. -/
inductive Act where
  | loadR : Act
  | saveR : Act
  | loadW : Act
  | saveW : Act
deriving Repr, DecidableEq

/-- Shared document plus the private snapshots of the registration
transaction (R) and the retention worker transaction (W). -/
structure SharedRun where
  doc : List VersionEntry
  snapR : Option (List VersionEntry)
  snapW : Option (List VersionEntry)
deriving Repr, DecidableEq

/-- Execute one action; a save writes the transform of the snapshot the
transaction read earlier, last writer wins. -/
def runStep (tR tW : List VersionEntry → List VersionEntry)
    (s : SharedRun) : Act → SharedRun
  | .loadR => { s with snapR := some s.doc }
  | .saveR =>
      match s.snapR with
      | some d => { s with doc := tR d }
      | none => s
  | .loadW => { s with snapW := some s.doc }
  | .saveW =>
      match s.snapW with
      | some d => { s with doc := tW d }
      | none => s

/-- Final document after running a schedule from an initial document. -/
def runSchedule (tR tW : List VersionEntry → List VersionEntry)
    (acts : List Act) (doc0 : List VersionEntry) : List VersionEntry :=
  (acts.foldl (runStep tR tW) ⟨doc0, none, none⟩).doc

/-- Index transform of the foreground registration: `register_version`
for a fresh snapshot file `b.blend`. -/
def registerTx (d : List VersionEntry) : List VersionEntry :=
  (register_version ⟨[⟨"b.blend", 300, [2]⟩], [], d⟩ "b.blend" "T2" "auto" false).1.index

/-- Index transform of the background worker: purge of the expired
deleted file `a.blend`. -/
def purgeTx (d : List VersionEntry) : List VersionEntry :=
  (purge_deleted_older_than ⟨[], [⟨"a.blend", 100, [1]⟩], d⟩ 0 200).1.index

/-- Collision scenario, step 1: from the empty project state, a first
snapshot is saved; its basename is `a_ts.blend`. -/
def collideS1 : PState :=
  (save_versioned_copy ⟨[], [], []⟩ "a" "ts" 100 "T1" [7] true "auto").1

/-- Collision scenario, step 2: the snapshot is moved to `deleted/`. -/
def collideS2 : PState :=
  (move_to_deleted collideS1 "a_ts.blend").1

/-- Collision scenario, step 3: the deleted snapshot is purged. -/
def collideS3 : PState :=
  (purge_deleted_older_than collideS2 0 200).1

/-- Collision scenario, step 4: a second snapshot reuses the same
basename, a same-second collision of the filename convention. -/
def collideS4 : PState :=
  (save_versioned_copy collideS3 "a" "ts" 300 "T2" [8] true "auto").1

/-- Collision scenario, step 5: the second snapshot is moved to
`deleted/`; the first matching index entry is the purged one. -/
def collideS5 : PState :=
  (move_to_deleted collideS4 "a_ts.blend").1

/-! ### JSON codec for the index document -/

/-- JSON value as produced by `json.dump` and consumed by `json.load`.
Numbers carry the hundredths-of-a-megabyte integers of `size_MB`. -/
inductive JVal where
  | null : JVal
  | bool (b : Bool) : JVal
  | num (n : Nat) : JVal
  | str (s : String) : JVal
  | arr (xs : List JVal) : JVal
  | obj (kvs : List (String × JVal)) : JVal
deriving Repr

/-- Key lookup in a JSON object. -/
def jLookup (k : String) : List (String × JVal) → Option JVal
  | [] => none
  | (k1, v) :: rest => if k1 == k then some v else jLookup k rest

def asStr : JVal → Option String
  | .str s => some s
  | _ => none

def asBool : JVal → Option Bool
  | .bool b => some b
  | _ => none

def asNumOrNull : JVal → Option (Option Nat)
  | .null => some none
  | .num n => some (some n)
  | _ => none

/-- Serialization of one entry, with the field order written by
`register_version`. -/
def encodeEntry (v : VersionEntry) : JVal :=
  .obj [("file", .str v.file), ("timestamp", .str v.timestamp),
        ("size_MB", match v.size_MB with | some n => .num n | none => .null),
        ("note", .str v.note), ("status", .str v.status),
        ("compressed", .bool v.compressed)]

/-- Typed reading of one entry back out of its JSON object. -/
def decodeEntry (j : JVal) : Option VersionEntry :=
  match j with
  | .obj kvs => do
      let f ← jLookup "file" kvs >>= asStr
      let ts ← jLookup "timestamp" kvs >>= asStr
      let sz ← jLookup "size_MB" kvs >>= asNumOrNull
      let nt ← jLookup "note" kvs >>= asStr
      let stt ← jLookup "status" kvs >>= asStr
      let comp ← jLookup "compressed" kvs >>= asBool
      some ⟨f, ts, sz, nt, stt, comp⟩
  | _ => none

/-- The whole document: a top-level object with key `versions`. -/
def encodeIndex (es : List VersionEntry) : JVal :=
  .obj [("versions", .arr (es.map encodeEntry))]

/-- Reading every element of the `versions` array. -/
def decodeList : List JVal → Option (List VersionEntry)
  | [] => some []
  | x :: xs => do
      let v ← decodeEntry x
      let vs ← decodeList xs
      some (v :: vs)

/-- Reading the whole document back. -/
def decodeIndex (j : JVal) : Option (List VersionEntry) :=
  match j with
  | .obj kvs =>
      match jLookup "versions" kvs with
      | some (.arr xs) => decodeList xs
      | _ => none
  | _ => none

/-- Content of `index.json` after `save_index(project_dir, data)`. -/
def save_index_document (data : List VersionEntry) : JVal :=
  encodeIndex data

/-- Python `load_index` at the document level: missing or unparseable
content yields the empty version list. -/
def load_index_document (j : Option JVal) : List VersionEntry :=
  match j with
  | none => []
  | some v => (decodeIndex v).getD []

/-! ### Helper lemmas -/

theorem decodeEntry_encodeEntry (v : VersionEntry) :
    decodeEntry (encodeEntry v) = some v := by
  cases v with
  | mk f ts sz nt stt comp => cases sz <;> rfl

theorem decodeList_map_encodeEntry (es : List VersionEntry) :
    decodeList (es.map encodeEntry) = some es := by
  induction es with
  | nil => rfl
  | cons v vs ih =>
      simp [decodeList, decodeEntry_encodeEntry, ih]

theorem contains_eq_decide_mem (l : List String) (a : String) :
    l.contains a = decide (a ∈ l) :=
  List.elem_eq_mem a l

theorem setFirstStatus_eq_of_not_mem (b s : String)
    (idx : List VersionEntry) (h : ∀ v ∈ idx, v.file ≠ b) :
    setFirstStatus b s idx = idx := by
  induction idx with
  | nil => rfl
  | cons v vs ih =>
      have hv : v.file ≠ b := h v (by simp)
      simp only [setFirstStatus, beq_iff_eq, if_neg hv]
      rw [ih fun w hw => h w (by simp [hw])]

theorem setStatus_self (v : VersionEntry) (s : String)
    (h : v.status = s) : { v with status := s } = v := by
  cases v
  simp_all

theorem purge_snd (st : PState) (days now : Nat) :
    (purge_deleted_older_than st days now).2
      = (st.deleted.filter (isExpired days now)).map FSFile.name := by
  simp only [purge_deleted_older_than]
  split <;> rfl

theorem purge_fst_history (st : PState) (days now : Nat) :
    (purge_deleted_older_than st days now).1.history = st.history := by
  simp only [purge_deleted_older_than]
  split <;> rfl

theorem purge_fst_deleted (st : PState) (days now : Nat) :
    (purge_deleted_older_than st days now).1.deleted
      = st.deleted.filter (fun f => !isExpired days now f) := by
  simp only [purge_deleted_older_than]
  split <;> rfl

theorem purge_fst_index (st : PState) (days now : Nat) :
    (purge_deleted_older_than st days now).1.index
      = st.index.map (fun v =>
          if ((st.deleted.filter (isExpired days now)).map FSFile.name).contains v.file
          then { v with status := "purged" } else v) := by
  simp only [purge_deleted_older_than]
  split
  · rename_i h
    have h0 : (st.deleted.filter (isExpired days now)).map FSFile.name = [] :=
      List.isEmpty_iff.mp h
    simp [h0]
  · rfl

theorem status_map_updateFirstCompress (b gz : String) (idx : List VersionEntry) :
    (updateFirstCompress b gz idx).map VersionEntry.status
      = idx.map VersionEntry.status := by
  induction idx with
  | nil => rfl
  | cons v vs ih =>
      simp only [updateFirstCompress]
      split
      · simp
      · simp [ih]

theorem compress_file_fst_index (gzip : List Nat → List Nat) (now : Nat)
    (s : PState) (fname : String) :
    (compress_file gzip now s fname).1.index = s.index := by
  unfold compress_file
  cases s.history.find? (fun f => f.name == fname) <;> rfl

theorem compressStep_index_status (gzip : List Nat → List Nat) (now : Nat)
    (s : PState) (fname : String) :
    (compressStep gzip now s fname).index.map VersionEntry.status
      = s.index.map VersionEntry.status := by
  unfold compressStep
  rcases hcf : compress_file gzip now s fname with ⟨s1, r⟩
  have h1 : s1.index = s.index := by
    have h := compress_file_fst_index gzip now s fname
    rw [hcf] at h
    exact h
  cases r with
  | none => rw [h1]
  | some gz => simp [status_map_updateFirstCompress, h1]

theorem compress_old_versions_index_status (gzip : List Nat → List Nat)
    (now : Nat) (st : PState) (k : Nat) :
    (compress_old_versions gzip now st k).index.map VersionEntry.status
      = st.index.map VersionEntry.status := by
  simp only [compress_old_versions]
  generalize (globBlendSortedDesc st).drop k = fs
  induction fs generalizing st with
  | nil => rfl
  | cons f fs ih =>
      simp only [List.foldl_cons]
      rw [ih, compressStep_index_status]

theorem setFirstStatus_getElem?_of_ne (b s : String) (idx : List VersionEntry)
    (i : Nat) (v : VersionEntry) (hv : idx[i]? = some v) (hne : v.file ≠ b) :
    (setFirstStatus b s idx)[i]? = some v := by
  induction idx generalizing i with
  | nil => simp at hv
  | cons w ws ih =>
      cases i with
      | zero =>
          simp only [List.getElem?_cons_zero, Option.some.injEq] at hv
          subst hv
          simp only [setFirstStatus]
          split
          · rename_i h
            exact absurd (by simpa using h) hne
          · simp
      | succ n =>
          simp only [List.getElem?_cons_succ] at hv
          simp only [setFirstStatus]
          split
          · simpa using hv
          · simpa using ih n hv

theorem find?_append_singleton {α : Type} (l : List α) (p : α → Bool)
    (f : α) (h : ∀ x ∈ l, ¬ p x) (hf : p f = true) :
    (l ++ [f]).find? p = some f := by
  induction l with
  | nil => simp [List.find?_cons_of_pos _ hf]
  | cons a as ih =>
      rw [List.cons_append, List.find?_cons_of_neg]
      · exact ih fun x hx => h x (by simp [hx])
      · exact fun hp => h a (by simp) hp

theorem setFirstStatus_find? (b s : String) (idx : List VersionEntry) :
    (setFirstStatus b s idx).find? (fun w => w.file == b)
      = (idx.find? (fun w => w.file == b)).map (fun w => { w with status := s }) := by
  induction idx with
  | nil => rfl
  | cons w ws ih =>
      by_cases h : w.file = b
      · rw [setFirstStatus, if_pos (by simpa using h)]
        rw [List.find?_cons_of_pos _ (by simpa using h),
          List.find?_cons_of_pos _ (by simpa using h)]
        rfl
      · rw [setFirstStatus, if_neg (by simpa using h)]
        rw [List.find?_cons_of_neg _ (by simpa using h),
          List.find?_cons_of_neg _ (by simpa using h)]
        exact ih

theorem any_of_find?_eq_some {α : Type} {l : List α} {p : α → Bool} {x : α}
    (h : l.find? p = some x) : l.any p = true :=
  List.any_eq_true.mpr ⟨x, List.mem_of_find?_eq_some h, List.find?_some h⟩

theorem isBlend_append_gz (m : String) : isBlend (m ++ ".gz") = false := by
  have hdata : (m ++ ".gz").data = m.data ++ ".gz".data := rfl
  simp [isBlend, strEndsWith, hdata, List.reverse_append, List.isPrefixOf]

theorem append_gz_inj (a b : String) (h : a ++ ".gz" = b ++ ".gz") : a = b := by
  apply String.ext
  have hab : a.data ++ ".gz".data = b.data ++ ".gz".data := by
    have ha : (a ++ ".gz").data = a.data ++ ".gz".data := rfl
    have hb : (b ++ ".gz").data = b.data ++ ".gz".data := rfl
    rw [← ha, ← hb, h]
  exact List.append_cancel_right hab

theorem blend_ne_append_gz (n m : String) (hn : isBlend n = true) :
    n ≠ m ++ ".gz" := by
  intro h
  rw [h, isBlend_append_gz] at hn
  exact Bool.false_ne_true hn

theorem find?_name_eq_of_nodup (l : List FSFile) (g : FSFile)
    (hnd : (l.map FSFile.name).Nodup) (hg : g ∈ l) :
    l.find? (fun f => f.name == g.name) = some g := by
  induction l with
  | nil => simp at hg
  | cons a as ih =>
      rcases List.mem_cons.mp hg with rfl | hg'
      · exact List.find?_cons_of_pos _ (by simp)
      · have hane : a.name ≠ g.name := by
          intro h
          have : g.name ∈ as.map FSFile.name := List.mem_map_of_mem _ hg'
          rw [← h] at this
          exact (List.nodup_cons.mp (by simpa using hnd)).1 this
        rw [List.find?_cons_of_neg _ (by simpa using hane)]
        exact ih (List.nodup_cons.mp (by simpa using hnd)).2 hg'

theorem insertDesc_perm (f : FSFile) (l : List FSFile) :
    (insertDesc f l).Perm (f :: l) := by
  induction l with
  | nil => exact List.Perm.refl _
  | cons g gs ih =>
      simp only [insertDesc]
      split
      · exact List.Perm.refl _
      · exact (ih.cons g).trans (List.Perm.swap f g gs)

theorem foldl_insertDesc_perm (l acc : List FSFile) :
    (l.foldl (fun a f => insertDesc f a) acc).Perm (acc ++ l) := by
  induction l generalizing acc with
  | nil => simp
  | cons f fs ih =>
      simp only [List.foldl_cons]
      refine (ih (insertDesc f acc)).trans ?_
      refine (List.Perm.append_right fs (insertDesc_perm f acc)).trans ?_
      exact List.Perm.symm List.perm_middle

theorem sortDescByMtime_perm (l : List FSFile) :
    (sortDescByMtime l).Perm l := by
  simpa using foldl_insertDesc_perm l []

theorem insertDesc_pairwise (f : FSFile) (l : List FSFile)
    (h : l.Pairwise (fun a b => b.mtime ≤ a.mtime)) :
    (insertDesc f l).Pairwise (fun a b => b.mtime ≤ a.mtime) := by
  induction l with
  | nil => simp [insertDesc]
  | cons g gs ih =>
      simp only [insertDesc]
      split
      · rename_i hlt
        refine List.Pairwise.cons ?_ h
        intro x hx
        rcases List.mem_cons.mp hx with rfl | hx'
        · omega
        · have := (List.pairwise_cons.mp h).1 x hx'
          omega
      · rename_i hge
        have hgs := (List.pairwise_cons.mp h).2
        refine List.Pairwise.cons ?_ (ih hgs)
        intro x hx
        have hx2 : x ∈ f :: gs := (insertDesc_perm f gs).mem_iff.mp hx
        rcases List.mem_cons.mp hx2 with rfl | hx'
        · omega
        · exact (List.pairwise_cons.mp h).1 x hx'

theorem foldl_insertDesc_pairwise (l acc : List FSFile)
    (h : acc.Pairwise (fun a b => b.mtime ≤ a.mtime)) :
    (l.foldl (fun a f => insertDesc f a) acc).Pairwise
      (fun a b => b.mtime ≤ a.mtime) := by
  induction l generalizing acc with
  | nil => exact h
  | cons f fs ih =>
      simp only [List.foldl_cons]
      exact ih _ (insertDesc_pairwise f acc h)

theorem sortDescByMtime_pairwise (l : List FSFile) :
    (sortDescByMtime l).Pairwise (fun a b => b.mtime ≤ a.mtime) :=
  foldl_insertDesc_pairwise l [] (by simp)

theorem names_not_contains_gz (ns : List String) (m : String)
    (hb : ∀ n ∈ ns, isBlend n = true) :
    ns.contains (m ++ ".gz") = false := by
  rw [contains_eq_decide_mem]
  simp only [decide_eq_false_iff_not]
  intro hmem
  exact blend_ne_append_gz _ m (hb _ hmem) rfl

theorem compress_fold (gzip : List Nat → List Nat) (now : Nat) :
    ∀ (gs : List FSFile) (s : PState),
      (s.history.map FSFile.name).Nodup →
      (∀ g ∈ gs, g ∈ s.history) →
      (∀ g ∈ gs, isBlend g.name = true) →
      (gs.map FSFile.name).Nodup →
      (gs.foldl (fun a f => compressStep gzip now a f.name) s).history
          = s.history.filter (fun f =>
              !(gs.map FSFile.name).contains f.name
              && !((gs.map FSFile.name).map (fun n => n ++ ".gz")).contains f.name)
            ++ gs.map (fun g => ⟨g.name ++ ".gz", now, gzip g.content⟩)
      ∧ (gs.foldl (fun a f => compressStep gzip now a f.name) s).index
          = gs.foldl (fun idx g =>
              updateFirstCompress g.name (g.name ++ ".gz") idx) s.index := by
  intro gs
  induction gs with
  | nil =>
      intro s hnd hmem hblend hgnd
      simp
  | cons g gs ih =>
      intro s hnd hmem hblend hgnd
      have hgmem : g ∈ s.history := hmem g (by simp)
      have hfind : s.history.find? (fun f => f.name == g.name) = some g :=
        find?_name_eq_of_nodup _ _ hnd hgmem
      have hstep : compressStep gzip now s g.name =
          { history := s.history.filter
              (fun h => h.name != g.name && h.name != g.name ++ ".gz")
              ++ [⟨g.name ++ ".gz", now, gzip g.content⟩]
            deleted := s.deleted
            index := updateFirstCompress g.name (g.name ++ ".gz") s.index } := by
        unfold compressStep compress_file
        rw [hfind]
      set s1 : PState :=
        { history := s.history.filter
            (fun h => h.name != g.name && h.name != g.name ++ ".gz")
            ++ [⟨g.name ++ ".gz", now, gzip g.content⟩]
          deleted := s.deleted
          index := updateFirstCompress g.name (g.name ++ ".gz") s.index } with hs1
      have hgnd2 : (∀ x ∈ gs, ¬x.name = g.name) ∧ (gs.map FSFile.name).Nodup := by
        simpa using hgnd
      have hgtail : g.name ∉ gs.map FSFile.name := by
        intro h
        obtain ⟨g', hg', heq⟩ := List.mem_map.mp h
        exact hgnd2.1 g' hg' heq
      have hA : (s1.history.map FSFile.name).Nodup := by
        rw [hs1]
        simp only [List.map_append, List.map_cons, List.map_nil]
        rw [List.nodup_append]
        refine ⟨((List.filter_sublist _).map FSFile.name).nodup hnd, by simp, ?_⟩
        intro x hx
        simp only [List.mem_map] at hx
        obtain ⟨h, hh, rfl⟩ := hx
        have := (List.mem_filter.mp hh).2
        simp only [Bool.and_eq_true, bne_iff_ne, ne_eq] at this
        simp [this.2]
      have hB : ∀ g' ∈ gs, g' ∈ s1.history := by
        intro g' hg'
        rw [hs1]
        apply List.mem_append_left
        refine List.mem_filter.mpr ⟨hmem g' (by simp [hg']), ?_⟩
        have h1 : g'.name ≠ g.name := by
          intro h
          exact hgtail (h ▸ List.mem_map_of_mem _ hg')
        have h2 : g'.name ≠ g.name ++ ".gz" :=
          blend_ne_append_gz _ _ (hblend g' (by simp [hg']))
        simp [h1, h2]
      have ihr := ih s1 hA hB (fun g' hg' => hblend g' (by simp [hg'])) hgnd2.2
      constructor
      · simp only [List.foldl_cons, hstep]
        rw [ihr.1]
        have hfilters : s1.history.filter (fun f =>
              !(gs.map FSFile.name).contains f.name
              && !((gs.map FSFile.name).map (fun n => n ++ ".gz")).contains f.name)
            = s.history.filter (fun f =>
              !((g :: gs).map FSFile.name).contains f.name
              && !(((g :: gs).map FSFile.name).map (fun n => n ++ ".gz")).contains f.name)
              ++ [⟨g.name ++ ".gz", now, gzip g.content⟩] := by
          rw [hs1]
          rw [List.filter_append, List.filter_filter]
          have hsingle : List.filter (fun f =>
              !(gs.map FSFile.name).contains f.name
              && !((gs.map FSFile.name).map (fun n => n ++ ".gz")).contains f.name)
              [(⟨g.name ++ ".gz", now, gzip g.content⟩ : FSFile)]
              = [⟨g.name ++ ".gz", now, gzip g.content⟩] := by
            simp only [List.filter_cons]
            simp
            exact ⟨fun x hx => blend_ne_append_gz _ _ (hblend x (by simp [hx])),
                   fun x hx h => hgnd2.1 x hx (append_gz_inj _ _ h)⟩
          rw [hsingle]
          congr 1
          apply List.filter_congr
          intro f _
          simp only [List.map_cons, List.contains_cons, bne, Bool.not_or]
          cases f.name == g.name <;> cases (gs.map FSFile.name).contains f.name <;>
            cases f.name == g.name ++ ".gz" <;>
            cases ((gs.map FSFile.name).map (fun n => n ++ ".gz")).contains f.name <;> rfl
        rw [hfilters]
        simp [List.append_assoc]
      · simp only [List.foldl_cons, hstep]
        rw [ihr.2]

theorem countP_updateFirstCompress_le (n gz m : String) (hgzm : (gz == m) = false)
    (idx : List VersionEntry) :
    (updateFirstCompress n gz idx).countP (fun w => w.file == m)
      ≤ idx.countP (fun w => w.file == m) := by
  induction idx with
  | nil => simp [updateFirstCompress]
  | cons w ws ih =>
      simp only [updateFirstCompress]
      split
      · simp only [List.countP_cons]
        simp [hgzm]
      · simp only [List.countP_cons]
        omega

theorem updateFirstCompress_getElem?_unique (n gz : String) (idx : List VersionEntry)
    (i : Nat) (v : VersionEntry) (hv : idx[i]? = some v)
    (hcount : idx.countP (fun w => w.file == n) ≤ 1) :
    (updateFirstCompress n gz idx)[i]?
      = some (if v.file == n then { v with file := gz, compressed := true } else v) := by
  induction idx generalizing i with
  | nil => simp at hv
  | cons w ws ih =>
      simp only [updateFirstCompress]
      split
      · rename_i hw
        cases i with
        | zero =>
            simp only [List.getElem?_cons_zero, Option.some.injEq] at hv
            subst hv
            simp [hw]
        | succ j =>
            simp only [List.getElem?_cons_succ] at hv ⊢
            have hws0 : ws.countP (fun w => w.file == n) = 0 := by
              rw [List.countP_cons] at hcount
              simp only [hw, if_true] at hcount
              omega
            have hvmem : v ∈ ws := List.getElem?_mem hv
            have hne : (v.file == n) = false := by
              have h0 := List.countP_eq_zero.mp hws0 v hvmem
              simpa using h0
            rw [hv, hne]
            simp
      · rename_i hw
        have hwf : (w.file == n) = false := by
          simpa using hw
        cases i with
        | zero =>
            simp only [List.getElem?_cons_zero, Option.some.injEq] at hv
            subst hv
            simp [hwf]
        | succ j =>
            simp only [List.getElem?_cons_succ] at hv ⊢
            have hcws : ws.countP (fun w => w.file == n) ≤ 1 := by
              rw [List.countP_cons] at hcount
              omega
            exact ih j hv hcws

theorem updateFold_getElem? :
    ∀ (ns : List String) (idx : List VersionEntry) (v : VersionEntry) (i : Nat),
      idx[i]? = some v →
      (∀ m, isBlend m = true → idx.countP (fun w => w.file == m) ≤ 1) →
      (∀ n ∈ ns, isBlend n = true) →
      ns.Nodup →
      (ns.foldl (fun a n => updateFirstCompress n (n ++ ".gz") a) idx)[i]?
        = some (if ns.contains v.file
                then { v with file := v.file ++ ".gz", compressed := true } else v) := by
  intro ns
  induction ns with
  | nil =>
      intro idx v i hv _ _ _
      simpa using hv
  | cons n ns ih =>
      intro idx v i hv hcount hblend hnd
      simp only [List.foldl_cons]
      have hidx' := updateFirstCompress_getElem?_unique n (n ++ ".gz") idx i v hv
        (hcount n (hblend n (by simp)))
      have hcount' : ∀ m, isBlend m = true →
          (updateFirstCompress n (n ++ ".gz") idx).countP (fun w => w.file == m) ≤ 1 := by
        intro m hm
        refine le_trans (countP_updateFirstCompress_le n _ m ?_ idx) (hcount m hm)
        have hne : n ++ ".gz" ≠ m := fun h => blend_ne_append_gz m n hm h.symm
        simpa using hne
      have hblend' : ∀ x ∈ ns, isBlend x = true := fun x hx => hblend x (by simp [hx])
      have hnd' : ns.Nodup := (List.nodup_cons.mp hnd).2
      by_cases hvn : v.file = n
      · have hv' : (updateFirstCompress n (n ++ ".gz") idx)[i]?
            = some { v with file := n ++ ".gz", compressed := true } := by
          rw [hidx']
          simp [hvn]
        have hrec := ih (updateFirstCompress n (n ++ ".gz") idx)
          { v with file := n ++ ".gz", compressed := true } i hv' hcount' hblend' hnd'
        rw [hrec]
        have hnc : ns.contains (n ++ ".gz") = false :=
          names_not_contains_gz ns n hblend'
        subst hvn
        have hncm : v.file ++ ".gz" ∉ ns := by simpa using hnc
        simp [hncm, List.contains_cons]
      · have hv' : (updateFirstCompress n (n ++ ".gz") idx)[i]? = some v := by
          rw [hidx']
          simp [hvn]
        have hrec := ih (updateFirstCompress n (n ++ ".gz") idx) v i hv' hcount' hblend' hnd'
        rw [hrec]
        simp [List.contains_cons, hvn]

theorem foldl_upd_map (gs : List FSFile) (idx : List VersionEntry) :
    gs.foldl (fun a g => updateFirstCompress g.name (g.name ++ ".gz") a) idx
      = (gs.map FSFile.name).foldl (fun a n => updateFirstCompress n (n ++ ".gz") a) idx := by
  induction gs generalizing idx with
  | nil => rfl
  | cons g gs ih => simp only [List.foldl_cons, List.map_cons, ih]

/-! ### Claims -/

/-- C4: `list_versions` with `include_deleted = false` returns the index
entries in index order with exactly the entries of status `deleted`
filtered out; entries of status `purged` remain in the result. -/
theorem C4_list_versions (st : PState) :
    list_versions st false = st.index.filter (fun v => v.status != "deleted")
    ∧ ∀ v ∈ st.index, v.status = "purged" → v ∈ list_versions st false := by
  refine ⟨rfl, fun v hv hp => ?_⟩
  simp [list_versions, load_index, List.mem_filter, hv, hp]

/-- Witness for C4 on a one-entry index holding a purged entry. -/
theorem C4_list_versions_witness :
    (⟨"f", "t", none, "auto", "purged", false⟩ : VersionEntry) ∈
      list_versions ⟨[], [], [⟨"f", "t", none, "auto", "purged", false⟩]⟩ false :=
  (C4_list_versions _).2 _ (by simp) rfl

/-- C5: when no file of the requested basename exists in `history/`,
`move_to_deleted` returns false and leaves the whole state unchanged. -/
theorem C5_move_to_deleted_absent (st : PState) (b : String)
    (h : ∀ f ∈ st.history, f.name ≠ b) :
    move_to_deleted st b = (st, false) := by
  unfold move_to_deleted
  have hf : st.history.find? (fun f => f.name == b) = none := by
    rw [List.find?_eq_none]
    intro f hfm
    simpa using h f hfm
  rw [hf]

/-- Witness for C5 on a state whose history lacks the basename. -/
theorem C5_move_to_deleted_absent_witness :
    move_to_deleted ⟨[⟨"a.blend", 5, [1]⟩], [], []⟩ "b.blend"
      = (⟨[⟨"a.blend", 5, [1]⟩], [], []⟩, false) :=
  C5_move_to_deleted_absent _ _ (by simp)

/-- C10: when the file exists in `history/` but no index entry carries
its basename, `move_to_deleted` still moves the file and returns true,
rewriting the index unchanged, so no entry is newly marked `deleted`. -/
theorem C10_move_to_deleted_no_entry (st : PState) (b : String) (f : FSFile)
    (hf : st.history.find? (fun g => g.name == b) = some f)
    (hidx : ∀ v ∈ st.index, v.file ≠ b) :
    (move_to_deleted st b).2 = true
    ∧ (move_to_deleted st b).1.index = st.index
    ∧ (∃ g ∈ (move_to_deleted st b).1.deleted, g.name = b ∧ g.content = f.content)
    ∧ (∀ g ∈ (move_to_deleted st b).1.history, g.name ≠ b) := by
  have hname : f.name = b := by simpa using List.find?_some hf
  unfold move_to_deleted
  rw [hf]
  simp only [save_index, load_index]
  refine ⟨by trivial, setFirstStatus_eq_of_not_mem _ _ _ hidx, ⟨f, ?_, hname, rfl⟩, ?_⟩
  · simp
  · intro g hg
    simpa using (List.mem_filter.mp hg).2

/-- Witness for C10: a history file with no matching index entry. -/
theorem C10_move_to_deleted_no_entry_witness :
    (move_to_deleted ⟨[⟨"a.blend", 5, [1]⟩], [], []⟩ "a.blend").2 = true
    ∧ (move_to_deleted ⟨[⟨"a.blend", 5, [1]⟩], [], []⟩ "a.blend").1.index = [] :=
  ⟨(C10_move_to_deleted_no_entry ⟨[⟨"a.blend", 5, [1]⟩], [], []⟩ "a.blend"
      ⟨"a.blend", 5, [1]⟩ (by decide) (by simp)).1,
   (C10_move_to_deleted_no_entry ⟨[⟨"a.blend", 5, [1]⟩], [], []⟩ "a.blend"
      ⟨"a.blend", 5, [1]⟩ (by decide) (by simp)).2.1⟩

/-- C7: `save_index` followed by `load_index` reproduces an equivalent
entry list: the same fields with the same values, in the same order. -/
theorem C7_save_load_round_trip (data : List VersionEntry) :
    load_index_document (some (save_index_document data)) = data := by
  simp [load_index_document, save_index_document, encodeIndex, decodeIndex,
    jLookup, decodeList_map_encodeEntry]

/-- C1: `compress_old_versions(keep_uncompressed=k)` leaves exactly
`min(k, number of blend files)` files uncompressed in `history/`,
namely the k most recently modified ones; every older blend file is
replaced by its gzipped `.gz` counterpart with the original gone, and
the matching index entry (unique by the file-field nodup hypothesis)
gets the `.gz` name and `compressed := true` while all other entries
are unchanged. -/
theorem C1_compress_old_versions (gzip : List Nat → List Nat) (now k : Nat)
    (st : PState)
    (hnd : (st.history.map FSFile.name).Nodup)
    (hidx : (st.index.map VersionEntry.file).Nodup) :
    ((compress_old_versions gzip now st k).history.filter
        (fun f => isBlend f.name)).length
      = min k (st.history.filter (fun f => isBlend f.name)).length
    ∧ (∀ f : FSFile,
        (f ∈ (compress_old_versions gzip now st k).history ∧ isBlend f.name = true)
          ↔ f ∈ (globBlendSortedDesc st).take k)
    ∧ (∀ f ∈ (globBlendSortedDesc st).take k,
        ∀ g ∈ (globBlendSortedDesc st).drop k, g.mtime ≤ f.mtime)
    ∧ (∀ g ∈ (globBlendSortedDesc st).drop k,
        (∀ h ∈ (compress_old_versions gzip now st k).history, h.name ≠ g.name)
        ∧ (⟨g.name ++ ".gz", now, gzip g.content⟩ : FSFile)
            ∈ (compress_old_versions gzip now st k).history)
    ∧ (∀ (i : Nat) (v : VersionEntry), st.index[i]? = some v →
        (compress_old_versions gzip now st k).index[i]?
          = some (if (((globBlendSortedDesc st).drop k).map FSFile.name).contains v.file
                  then { v with file := v.file ++ ".gz", compressed := true } else v)) := by
  have hperm : (globBlendSortedDesc st).Perm
      (st.history.filter (fun f => isBlend f.name)) := sortDescByMtime_perm _
  have hfblendnd : ((st.history.filter (fun f => isBlend f.name)).map FSFile.name).Nodup :=
    ((List.filter_sublist _).map FSFile.name).nodup hnd
  have hsortnd : ((globBlendSortedDesc st).map FSFile.name).Nodup :=
    ((hperm.map FSFile.name).nodup_iff).mpr hfblendnd
  have hsortblend : ∀ f ∈ globBlendSortedDesc st, isBlend f.name = true := by
    intro f hf
    exact (List.mem_filter.mp (hperm.mem_iff.mp hf)).2
  have hsortmem : ∀ f ∈ globBlendSortedDesc st, f ∈ st.history := fun f hf =>
    (List.mem_filter.mp (hperm.mem_iff.mp hf)).1
  have hgsnd : (((globBlendSortedDesc st).drop k).map FSFile.name).Nodup := by
    rw [List.map_drop]
    exact (List.drop_sublist _ _).nodup hsortnd
  have hgsblend : ∀ g ∈ (globBlendSortedDesc st).drop k, isBlend g.name = true :=
    fun g hg => hsortblend g (List.mem_of_mem_drop hg)
  have hfold := compress_fold gzip now ((globBlendSortedDesc st).drop k) st hnd
    (fun g hg => hsortmem g (List.mem_of_mem_drop hg)) hgsblend hgsnd
  have hco : compress_old_versions gzip now st k
      = ((globBlendSortedDesc st).drop k).foldl
          (fun a f => compressStep gzip now a f.name) st := rfl
  have hsplit : (globBlendSortedDesc st).map FSFile.name
      = ((globBlendSortedDesc st).take k).map FSFile.name
        ++ ((globBlendSortedDesc st).drop k).map FSFile.name := by
    rw [← List.map_append, List.take_append_drop]
  have hdisj : ∀ f ∈ (globBlendSortedDesc st).take k,
      f.name ∉ ((globBlendSortedDesc st).drop k).map FSFile.name := by
    intro f hf hmem
    rw [hsplit] at hsortnd
    exact List.disjoint_of_nodup_append hsortnd (List.mem_map_of_mem _ hf) hmem
  have hPkept : ∀ f ∈ (globBlendSortedDesc st).take k,
      (!(((globBlendSortedDesc st).drop k).map FSFile.name).contains f.name
        && !((((globBlendSortedDesc st).drop k).map FSFile.name).map
              (fun n => n ++ ".gz")).contains f.name) = true := by
    intro f hf
    have h1 : (((globBlendSortedDesc st).drop k).map FSFile.name).contains f.name = false := by
      rw [contains_eq_decide_mem]
      simp only [decide_eq_false_iff_not]
      exact hdisj f hf
    have h2 : ((((globBlendSortedDesc st).drop k).map FSFile.name).map
        (fun n => n ++ ".gz")).contains f.name = false := by
      rw [contains_eq_decide_mem]
      simp only [decide_eq_false_iff_not]
      intro hm
      obtain ⟨n, hn, heq⟩ := List.mem_map.mp hm
      exact blend_ne_append_gz _ _ (hsortblend f (List.mem_of_mem_take hf)) heq.symm
    rw [h1, h2]
    rfl
  have hPgs : ∀ g ∈ (globBlendSortedDesc st).drop k,
      (!(((globBlendSortedDesc st).drop k).map FSFile.name).contains g.name
        && !((((globBlendSortedDesc st).drop k).map FSFile.name).map
              (fun n => n ++ ".gz")).contains g.name) = false := by
    intro g hg
    have h1 : (((globBlendSortedDesc st).drop k).map FSFile.name).contains g.name = true := by
      rw [contains_eq_decide_mem]
      simp only [decide_eq_true_eq]
      exact List.mem_map_of_mem FSFile.name hg
    rw [h1]
    rfl
  have hgzblend : ((((globBlendSortedDesc st).drop k).map
      (fun g => (⟨g.name ++ ".gz", now, gzip g.content⟩ : FSFile))).filter
        (fun f => isBlend f.name)) = [] := by
    rw [List.filter_eq_nil_iff]
    intro f hf
    obtain ⟨g, hg, rfl⟩ := List.mem_map.mp hf
    simp [isBlend_append_gz]
  have hfinal : (compress_old_versions gzip now st k).history.filter
      (fun f => isBlend f.name)
      = st.history.filter (fun a => isBlend a.name
          && (!(((globBlendSortedDesc st).drop k).map FSFile.name).contains a.name
            && !((((globBlendSortedDesc st).drop k).map FSFile.name).map
                  (fun n => n ++ ".gz")).contains a.name)) := by
    rw [hco, hfold.1, List.filter_append, hgzblend, List.append_nil, List.filter_filter]
  have hfperm : (st.history.filter (fun a => isBlend a.name
      && (!(((globBlendSortedDesc st).drop k).map FSFile.name).contains a.name
        && !((((globBlendSortedDesc st).drop k).map FSFile.name).map
              (fun n => n ++ ".gz")).contains a.name))).Perm
      ((globBlendSortedDesc st).take k) := by
    have hstep1 : (st.history.filter (fun a => isBlend a.name
        && (!(((globBlendSortedDesc st).drop k).map FSFile.name).contains a.name
          && !((((globBlendSortedDesc st).drop k).map FSFile.name).map
                (fun n => n ++ ".gz")).contains a.name)))
        = ((st.history.filter (fun f => isBlend f.name)).filter
            (fun a => !(((globBlendSortedDesc st).drop k).map FSFile.name).contains a.name
              && !((((globBlendSortedDesc st).drop k).map FSFile.name).map
                    (fun n => n ++ ".gz")).contains a.name)) := by
      rw [List.filter_filter]
      apply List.filter_congr
      intro a _
      rw [Bool.and_comm]
    rw [hstep1]
    refine (List.Perm.filter _ hperm.symm).trans ?_
    have e : (globBlendSortedDesc st).take k ++ (globBlendSortedDesc st).drop k
        = globBlendSortedDesc st := List.take_append_drop k _
    have e2 := congrArg (List.filter
      (fun a => !(((globBlendSortedDesc st).drop k).map FSFile.name).contains a.name
        && !((((globBlendSortedDesc st).drop k).map FSFile.name).map
              (fun n => n ++ ".gz")).contains a.name)) e.symm
    rw [List.filter_append] at e2
    have hkeep_eq : List.filter
        (fun a => !(((globBlendSortedDesc st).drop k).map FSFile.name).contains a.name
          && !((((globBlendSortedDesc st).drop k).map FSFile.name).map
                (fun n => n ++ ".gz")).contains a.name)
        ((globBlendSortedDesc st).take k) = (globBlendSortedDesc st).take k :=
      List.filter_eq_self.mpr hPkept
    have hdrop_eq : List.filter
        (fun a => !(((globBlendSortedDesc st).drop k).map FSFile.name).contains a.name
          && !((((globBlendSortedDesc st).drop k).map FSFile.name).map
                (fun n => n ++ ".gz")).contains a.name)
        ((globBlendSortedDesc st).drop k) = [] := by
      rw [List.filter_eq_nil_iff]
      intro g hg
      simp only [Bool.not_eq_true]
      exact hPgs g hg
    rw [hkeep_eq, hdrop_eq, List.append_nil] at e2
    rw [e2]
  have hpermkept : ((compress_old_versions gzip now st k).history.filter
      (fun f => isBlend f.name)).Perm ((globBlendSortedDesc st).take k) := by
    rw [hfinal]
    exact hfperm
  refine ⟨?_, ?_, ?_, ?_, ?_⟩
  · rw [hpermkept.length_eq, List.length_take, hperm.length_eq]
  · intro f
    rw [← hpermkept.mem_iff]
    simp [List.mem_filter]
  · have hpair := sortDescByMtime_pairwise (st.history.filter (fun f => isBlend f.name))
    have hpair2 : (((globBlendSortedDesc st).take k)
        ++ ((globBlendSortedDesc st).drop k)).Pairwise
          (fun a b => b.mtime ≤ a.mtime) := by
      rw [List.take_append_drop]
      exact hpair
    intro f hf g hg
    exact (List.pairwise_append.mp hpair2).2.2 f hf g hg
  · intro g hg
    constructor
    · intro h hh
      rw [hco, hfold.1] at hh
      rcases List.mem_append.mp hh with hh1 | hh2
      · have hP := (List.mem_filter.mp hh1).2
        intro heq
        have h1 : (((globBlendSortedDesc st).drop k).map FSFile.name).contains h.name = true := by
          rw [contains_eq_decide_mem]
          simp only [decide_eq_true_eq]
          rw [heq]
          exact List.mem_map_of_mem _ hg
        rw [h1] at hP
        simp at hP
      · obtain ⟨g', hg', rfl⟩ := List.mem_map.mp hh2
        exact fun heq => blend_ne_append_gz _ _ (hgsblend g hg) heq.symm
    · rw [hco, hfold.1]
      exact List.mem_append_right _ (List.mem_map_of_mem _ hg)
  · intro i v hv
    rw [hco, hfold.2, foldl_upd_map]
    apply updateFold_getElem?
    · exact hv
    · intro m _
      have hcm := List.nodup_iff_count_le_one.mp hidx m
      have : (st.index.map VersionEntry.file).count m
          = st.index.countP (fun w => w.file == m) := by
        rw [List.count, List.countP_map]
        rfl
      rw [this] at hcm
      exact hcm
    · intro n hn
      obtain ⟨g, hg, rfl⟩ := List.mem_map.mp hn
      exact hgsblend g hg
    · exact hgsnd

/-- Witness for C1: three blend files, keep the newest one. -/
theorem C1_compress_old_versions_witness :
    ((compress_old_versions (fun l => 9 :: l) 50
        ⟨[⟨"p_1.blend", 10, [1]⟩, ⟨"p_2.blend", 20, [2]⟩, ⟨"p_3.blend", 30, [3]⟩], [],
         [⟨"p_1.blend", "t1", some 0, "auto", "active", false⟩]⟩ 1).history.filter
        (fun f => isBlend f.name)).length
      = min 1 (((⟨[⟨"p_1.blend", 10, [1]⟩, ⟨"p_2.blend", 20, [2]⟩, ⟨"p_3.blend", 30, [3]⟩], [],
         [⟨"p_1.blend", "t1", some 0, "auto", "active", false⟩]⟩ : PState)).history.filter
        (fun f => isBlend f.name)).length
    ∧ (compress_old_versions (fun l => 9 :: l) 50
        ⟨[⟨"p_1.blend", 10, [1]⟩, ⟨"p_2.blend", 20, [2]⟩, ⟨"p_3.blend", 30, [3]⟩], [],
         [⟨"p_1.blend", "t1", some 0, "auto", "active", false⟩]⟩ 1).index[0]?
      = some ⟨"p_1.blend.gz", "t1", some 0, "auto", "active", true⟩ := by
  have h := C1_compress_old_versions (fun l => 9 :: l) 50 1
    ⟨[⟨"p_1.blend", 10, [1]⟩, ⟨"p_2.blend", 20, [2]⟩, ⟨"p_3.blend", 30, [3]⟩], [],
     [⟨"p_1.blend", "t1", some 0, "auto", "active", false⟩]⟩ (by decide) (by decide)
  refine ⟨h.1, ?_⟩
  rw [h.2.2.2.2 0 ⟨"p_1.blend", "t1", some 0, "auto", "active", false⟩ rfl]
  decide

/-- C3 counterexample: in the collision scenario the first index entry
is purged after step 3 but deleted after step 5, so a sequence of the
listed operations does move an entry out of the purged state when a
later file reuses the basename of a purged entry. -/
theorem C3_purged_exit_counterexample :
    collideS3.index[0]?
      = some ⟨"a_ts.blend", "T1", some 0, "auto", "purged", false⟩
    ∧ collideS5.index[0]?
      = some ⟨"a_ts.blend", "T1", some 0, "auto", "deleted", false⟩ := by
  constructor <;> rfl

/-- C3 amended: an entry with status purged keeps that status across
every operation, provided no file in `history/` or `deleted/` bears the
basename recorded in the purged entry (the invariant the data model
intends for purged entries). -/
theorem C3_no_exit_from_purged (st : PState) (i : Nat) (v : VersionEntry)
    (hv : st.index[i]? = some v) (hp : v.status = "purged")
    (hhist : ∀ f ∈ st.history, f.name ≠ v.file)
    (hdel : ∀ f ∈ st.deleted, f.name ≠ v.file) :
    (∀ filename tstr note c,
        ((register_version st filename tstr note c).1.index[i]?).map VersionEntry.status
          = some "purged")
    ∧ (∀ gzip now k,
        ((compress_old_versions gzip now st k).index[i]?).map VersionEntry.status
          = some "purged")
    ∧ (∀ b,
        ((move_to_deleted st b).1.index[i]?).map VersionEntry.status
          = some "purged")
    ∧ (∀ b tstr,
        ((restore_deleted st b tstr).1.index[i]?).map VersionEntry.status
          = some "purged")
    ∧ (∀ days now,
        ((purge_deleted_older_than st days now).1.index[i]?).map VersionEntry.status
          = some "purged") := by
  have hi : i < st.index.length := (List.getElem?_eq_some.mp hv).1
  refine ⟨?_, ?_, ?_, ?_, ?_⟩
  · intro filename tstr note c
    simp only [register_version, save_index, load_index]
    rw [List.getElem?_append_left hi, hv]
    simp [hp]
  · intro gzip now k
    have hmap := compress_old_versions_index_status gzip now st k
    calc ((compress_old_versions gzip now st k).index[i]?).map VersionEntry.status
        = ((compress_old_versions gzip now st k).index.map VersionEntry.status)[i]? :=
          (List.getElem?_map _ _ _).symm
      _ = (st.index.map VersionEntry.status)[i]? := by rw [hmap]
      _ = (st.index[i]?).map VersionEntry.status := List.getElem?_map _ _ _
      _ = some "purged" := by rw [hv]; simp [hp]
  · intro b
    rcases hfind : st.history.find? (fun f => f.name == b) with _ | f
    · unfold move_to_deleted
      rw [hfind, hv]
      simp [hp]
    · have hfb : f.name = b := by simpa using List.find?_some hfind
      have hfm : f ∈ st.history := List.mem_of_find?_eq_some hfind
      have hbne : v.file ≠ b := fun h => hhist f hfm (by rw [hfb, h])
      unfold move_to_deleted
      rw [hfind]
      simp only [save_index, load_index]
      rw [setFirstStatus_getElem?_of_ne b _ st.index i v hv hbne]
      simp [hp]
  · intro b tstr
    rcases hfind : st.deleted.find? (fun f => f.name == b) with _ | f
    · unfold restore_deleted
      rw [hfind, hv]
      simp [hp]
    · have hfb : f.name = b := by simpa using List.find?_some hfind
      have hfm : f ∈ st.deleted := List.mem_of_find?_eq_some hfind
      have hbne : v.file ≠ b := fun h => hdel f hfm (by rw [hfb, h])
      unfold restore_deleted
      rw [hfind]
      simp only [save_index, load_index]
      split
      · rw [setFirstStatus_getElem?_of_ne b _ st.index i v hv hbne]
        simp [hp]
      · rw [List.getElem?_append_left hi, hv]
        simp [hp]
  · intro days now
    rw [purge_fst_index, List.getElem?_map, hv]
    simp only [Option.map_some']
    split
    · rfl
    · simp [hp]

/-- Witness for the amended C3 on a state holding a purged entry whose
file is gone while an unrelated file is moved to deleted. -/
theorem C3_no_exit_from_purged_witness :
    ((move_to_deleted
        ⟨[⟨"other.blend", 5, [1]⟩], [],
         [⟨"gone.blend", "t", none, "auto", "purged", false⟩]⟩
        "other.blend").1.index[0]?).map VersionEntry.status = some "purged" :=
  (C3_no_exit_from_purged
      ⟨[⟨"other.blend", 5, [1]⟩], [],
       [⟨"gone.blend", "t", none, "auto", "purged", false⟩]⟩
      0 ⟨"gone.blend", "t", none, "auto", "purged", false⟩
      (by decide) rfl (by simp) (by simp)).2.2.1 "other.blend"

/-- Characterization of `restore_deleted` when the file is present in
`deleted/` and some index entry carries the basename. -/
theorem restore_deleted_found (st : PState) (b tstr : String) (f : FSFile)
    (hf : st.deleted.find? (fun g => g.name == b) = some f)
    (hany : st.index.any (fun w => w.file == b) = true) :
    restore_deleted st b tstr =
      ({ history := st.history.filter (fun g => g.name != b) ++ [f]
         deleted := st.deleted.filter (fun g => g.name != b)
         index := setFirstStatus b "active" st.index }, true) := by
  unfold restore_deleted
  rw [hf]
  simp only [save_index, load_index, hany, if_true]

/-- C6: moving a file to `deleted/` and restoring it with the same
basename is idempotent on content: both calls return true, a file of
that basename with the same bytes is back in `history/`, and the first
matching index entry returns to its original value with status
`active`. -/
theorem C6_move_then_restore (st : PState) (b tstr : String)
    (f : FSFile) (v : VersionEntry)
    (hf : st.history.find? (fun g => g.name == b) = some f)
    (hv : st.index.find? (fun w => w.file == b) = some v)
    (hva : v.status = "active") :
    (move_to_deleted st b).2 = true
    ∧ (restore_deleted (move_to_deleted st b).1 b tstr).2 = true
    ∧ (∃ g ∈ (restore_deleted (move_to_deleted st b).1 b tstr).1.history,
        g.name = b ∧ g.content = f.content)
    ∧ (restore_deleted (move_to_deleted st b).1 b tstr).1.index.find?
        (fun w => w.file == b) = some v := by
  have hfb : f.name = b := by simpa using List.find?_some hf
  have hmove : move_to_deleted st b =
      ({ history := st.history.filter (fun g => g.name != b)
         deleted := st.deleted.filter (fun g => g.name != b) ++ [f]
         index := setFirstStatus b "deleted" st.index }, true) := by
    unfold move_to_deleted
    rw [hf]
    rfl
  have hfind2 : (st.deleted.filter (fun g => g.name != b) ++ [f]).find?
      (fun g => g.name == b) = some f := by
    apply find?_append_singleton
    · intro x hx
      simpa using (List.mem_filter.mp hx).2
    · simpa using hfb
  have hany : (setFirstStatus b "deleted" st.index).any (fun w => w.file == b) = true := by
    apply any_of_find?_eq_some
    rw [setFirstStatus_find?, hv]
    rfl
  rw [hmove]
  rw [restore_deleted_found _ b tstr f hfind2 hany]
  obtain ⟨vf, vts, vsz, vnt, vst, vc⟩ := v
  simp only [VersionEntry.status] at hva
  subst hva
  refine ⟨rfl, rfl, ⟨f, by simp, hfb, rfl⟩, ?_⟩
  rw [setFirstStatus_find?, setFirstStatus_find?, hv]
  rfl

/-- Witness for C6 on a one-file project. -/
theorem C6_move_then_restore_witness :
    (move_to_deleted ⟨[⟨"a.blend", 5, [1, 2]⟩], [],
        [⟨"a.blend", "t", some 0, "auto", "active", false⟩]⟩ "a.blend").2 = true
    ∧ (restore_deleted (move_to_deleted ⟨[⟨"a.blend", 5, [1, 2]⟩], [],
        [⟨"a.blend", "t", some 0, "auto", "active", false⟩]⟩ "a.blend").1
        "a.blend" "T").2 = true
    ∧ (restore_deleted (move_to_deleted ⟨[⟨"a.blend", 5, [1, 2]⟩], [],
        [⟨"a.blend", "t", some 0, "auto", "active", false⟩]⟩ "a.blend").1
        "a.blend" "T").1.index.find? (fun w => w.file == "a.blend")
      = some ⟨"a.blend", "t", some 0, "auto", "active", false⟩ := by
  have h := C6_move_then_restore
    ⟨[⟨"a.blend", 5, [1, 2]⟩], [],
     [⟨"a.blend", "t", some 0, "auto", "active", false⟩]⟩ "a.blend" "T"
    ⟨"a.blend", 5, [1, 2]⟩ ⟨"a.blend", "t", some 0, "auto", "active", false⟩
    rfl rfl rfl
  exact ⟨h.1, h.2.1, h.2.2.2⟩

/-- C2: `purge_deleted_older_than` removes exactly the files of
`deleted/` older than `days * 86400` seconds, returns their basenames,
marks the matching index entries `purged`, leaves fresh files and the
rest of the state untouched, and leaves already-purged entries with
unchanged values. -/
theorem C2_purge_deleted_older_than (st : PState) (days now : Nat) :
    ((purge_deleted_older_than st days now).2
        = (st.deleted.filter (fun f => days * 86400 + f.mtime < now)).map FSFile.name)
    ∧ (∀ f ∈ st.deleted, days * 86400 + f.mtime < now →
        f.name ∈ (purge_deleted_older_than st days now).2
        ∧ f ∉ (purge_deleted_older_than st days now).1.deleted)
    ∧ (∀ f ∈ st.deleted, ¬ (days * 86400 + f.mtime < now) →
        f ∈ (purge_deleted_older_than st days now).1.deleted)
    ∧ ((purge_deleted_older_than st days now).1.history = st.history)
    ∧ (∀ (i : Nat) (v : VersionEntry), st.index[i]? = some v →
        (purge_deleted_older_than st days now).1.index[i]?
          = some (if v.file ∈ (purge_deleted_older_than st days now).2
                  then { v with status := "purged" } else v))
    ∧ (∀ (i : Nat) (v : VersionEntry), st.index[i]? = some v → v.status = "purged" →
        (purge_deleted_older_than st days now).1.index[i]? = some v) := by
  have hexp : ∀ f : FSFile, isExpired days now f = true ↔ days * 86400 + f.mtime < now := by
    intro f
    simp [isExpired]
  have hsnd := purge_snd st days now
  have hfilter_eq : st.deleted.filter (isExpired days now)
      = st.deleted.filter (fun f => days * 86400 + f.mtime < now) := by
    apply List.filter_congr
    intro f _
    simp [isExpired]
  refine ⟨by rw [hsnd, hfilter_eq], ?_, ?_, purge_fst_history st days now, ?_, ?_⟩
  · intro f hfm hold
    constructor
    · rw [hsnd]
      exact List.mem_map_of_mem _ (List.mem_filter.mpr ⟨hfm, (hexp f).mpr hold⟩)
    · rw [purge_fst_deleted]
      intro hmem
      have := (List.mem_filter.mp hmem).2
      simp [isExpired, hold] at this
  · intro f hfm hfresh
    rw [purge_fst_deleted]
    refine List.mem_filter.mpr ⟨hfm, ?_⟩
    simp [isExpired]
    omega
  · intro i v hv
    rw [purge_fst_index, List.getElem?_map, hv, hsnd]
    simp only [Option.map_some']
    congr 1
    rw [contains_eq_decide_mem]
    simp only [decide_eq_true_eq]
  · intro i v hv hp
    rw [purge_fst_index, List.getElem?_map, hv]
    simp only [Option.map_some']
    congr 1
    split
    · exact setStatus_self v _ hp
    · rfl

/-- Witness for C2: one expired file, one fresh file, matching entries. -/
theorem C2_purge_deleted_older_than_witness :
    ((purge_deleted_older_than
        ⟨[], [⟨"old.blend", 100, [1]⟩, ⟨"new.blend", 170000, [2]⟩],
         [⟨"old.blend", "t1", some 1, "auto", "deleted", false⟩]⟩ 1 200000).2
      = ["old.blend"])
    ∧ ((purge_deleted_older_than
        ⟨[], [⟨"old.blend", 100, [1]⟩, ⟨"new.blend", 170000, [2]⟩],
         [⟨"old.blend", "t1", some 1, "auto", "deleted", false⟩]⟩ 1 200000).1.index[0]?
      = some ⟨"old.blend", "t1", some 1, "auto", "purged", false⟩) := by
  have h := C2_purge_deleted_older_than
    ⟨[], [⟨"old.blend", 100, [1]⟩, ⟨"new.blend", 170000, [2]⟩],
     [⟨"old.blend", "t1", some 1, "auto", "deleted", false⟩]⟩ 1 200000
  have h5 := h.2.2.2.2.1 0
    ⟨"old.blend", "t1", some 1, "auto", "deleted", false⟩ (by decide)
  exact ⟨by simp only [h.1]; decide, by simp only [h5, h.1]; decide⟩

/-- C8 counterexample: `register_version` calls `save_index` with no
try/except, so when the index file is not writable the failure
propagates uncaught to the caller instead of becoming a result. -/
theorem C8_uncaught_exception_counterexample :
    register_versionE false ⟨[], [], []⟩ "a.blend" "t" "auto" false
      = .error "save_index: index file not writable" := rfl

/-- C8 amended: host-copy failures and operations that never reach a
`save_index` call are reported as results without raising, and when
the index file write succeeds every core operation returns a result;
only a failing index write escapes as an exception. -/
theorem C8_results_when_index_writable (st : PState)
    (filename tstr note b stem ts : String) (c incl copyOk w : Bool)
    (gzip : List Nat → List Nat) (now1 : Nat) (content : List Nat)
    (k days now2 : Nat) :
    isOkE (register_versionE true st filename tstr note c) = true
    ∧ isOkE (list_versionsE st incl) = true
    ∧ isOkE (save_versioned_copyE true copyOk st stem ts now1 tstr content note) = true
    ∧ isOkE (save_versioned_copyE w false st stem ts now1 tstr content note) = true
    ∧ isOkE (compress_old_versionsE true gzip now1 st k) = true
    ∧ isOkE (move_to_deletedE true st b) = true
    ∧ isOkE (restore_deletedE true st b tstr) = true
    ∧ isOkE (purge_deleted_older_thanE true st days now2) = true := by
  refine ⟨rfl, rfl, ?_, rfl, ?_, ?_, ?_, ?_⟩
  · unfold save_versioned_copyE
    cases copyOk <;> rfl
  · unfold compress_old_versionsE
    split <;> simp [isOkE]
  · unfold move_to_deletedE
    cases st.history.find? (fun f => f.name == b) <;> simp [isOkE]
  · unfold restore_deletedE
    cases st.deleted.find? (fun f => f.name == b) <;> simp [isOkE]
  · unfold purge_deleted_older_thanE
    split <;> simp [isOkE]

/-- C9: with the unsynchronized load-modify-save of `index.json`, the
interleaving in which the background worker reads before the foreground
registration writes ends with the registered entry silently discarded
by the worker's write-back, while the serialized schedule keeps both
mutations. -/
theorem C9_lost_update :
    runSchedule registerTx purgeTx [Act.loadW, Act.loadR, Act.saveR, Act.saveW]
      [⟨"a.blend", "t1", some 0, "auto", "deleted", false⟩]
      = [⟨"a.blend", "t1", some 0, "auto", "purged", false⟩]
    ∧ (⟨"b.blend", "T2", some 0, "auto", "active", false⟩ : VersionEntry) ∉
        runSchedule registerTx purgeTx [Act.loadW, Act.loadR, Act.saveR, Act.saveW]
          [⟨"a.blend", "t1", some 0, "auto", "deleted", false⟩]
    ∧ runSchedule registerTx purgeTx [Act.loadR, Act.saveR, Act.loadW, Act.saveW]
        [⟨"a.blend", "t1", some 0, "auto", "deleted", false⟩]
      = [⟨"a.blend", "t1", some 0, "auto", "purged", false⟩,
         ⟨"b.blend", "T2", some 0, "auto", "active", false⟩] := by
  exact ⟨rfl, by decide, rfl⟩

end Autosaver
